import Mathlib

/-!
Shallow embedding of the Tag Management Service (`main.py`).

The Firestore corpus is modelled as a `Store`: a list of articles, a list
of dictionary entries and a list of suggestion records (document ids are
list positions; `add` appends).  Missing string fields read through
`dict.get` are modelled as `""` (both `None` and `""` are falsy in the
Python truthiness tests the code performs), and the optional
`sourceTag` / `targetTag` fields of a suggestion are `Option String`
(`.get` yields `None` when the field is absent).  Python `set` values
are modelled as deduplicated lists: only their membership (and emptiness
of duplication) is ever relied on, never an enumeration order.
-/

set_option autoImplicit false

namespace TagService

/-- An Article document's `aiGenerated` payload: the `categories` and
`tags` lists (a missing list reads as `[]`). -/
structure Article where
  categories : List String
  tags : List String
  deriving DecidableEq, Repr

/-- A `dictionary` document: `termName`, `definition` (missing or null
modelled as `""`, which is exactly the falsy case of the Python code)
and the optional `constituentTags` list. -/
structure DictEntry where
  termName : String
  definition : String
  constituentTags : List String
  deriving DecidableEq, Repr

/-- A `suggestion_tags` document.  `stype` is the `type` field;
`reviewedAt` records whether the review timestamp has been stamped. -/
structure Suggestion where
  stype : String
  sourceTag : Option String
  targetTag : Option String
  reason : String
  definitionProposal : Option String
  status : String
  reviewedAt : Bool
  deriving DecidableEq, Repr

/-- The whole Firestore state touched by the service. -/
structure Store where
  articles : List Article
  dictionary : List DictEntry
  suggestions : List Suggestion
  deriving DecidableEq, Repr

/-- An HTTP JSON response: `status`, `message`, HTTP code. -/
structure Response where
  status : String
  message : String
  code : Nat
  deriving DecidableEq, Repr

/-- Test `charsStartWith needle hay`: `hay` starts with `needle`. -/
def charsStartWith : List Char → List Char → Bool
  | [], _ => true
  | _ :: _, [] => false
  | n :: ns, h :: hs => n == h && charsStartWith ns hs

/-- Test `charsContain hay needle`: `needle` occurs contiguously in `hay`. -/
def charsContain : List Char → List Char → Bool
  | [], needle => charsStartWith needle []
  | h :: hs, needle => charsStartWith needle (h :: hs) || charsContain hs needle

/-- Python's `needle in hay` on strings (case-sensitive substring). -/
def strIn (needle hay : String) : Bool := charsContain hay.data needle.data

/-! ### Tag Collector (`collect_all_tags_and_definitions`) -/

/-- The `all_tags` set: every article's `categories` and `tags`, plus
every dictionary entry's truthy `termName`.  The Python `set` is
modelled as a deduplicated list. -/
def collect_all_tags_list (st : Store) : List String :=
  ((st.articles.foldl (fun (acc : List String) (a : Article) => acc ++ a.categories ++ a.tags) []) ++
    ((st.dictionary.filter (fun (e : DictEntry) => e.termName ≠ "")).map
      (fun (e : DictEntry) => e.termName))).dedup

/-- Python `d[k] = v`: overwrite the value if the key is present
(keeping its position), otherwise append the binding. -/
def dictInsert (m : List (String × String)) (k v : String) : List (String × String) :=
  if m.any (fun p => p.1 == k) then m.map (fun p => if p.1 == k then (k, v) else p)
  else m ++ [(k, v)]

/-- One iteration of the dictionary-collection loop: bind
`termName → definition` when both are truthy, else keep the dict. -/
def tagDefStep (m : List (String × String)) (e : DictEntry) : List (String × String) :=
  if e.termName ≠ "" ∧ e.definition ≠ "" then dictInsert m e.termName e.definition else m

/-- The `tag_definitions` dict: for each dictionary entry with truthy
`termName` and truthy `definition`, bind `termName → definition`. -/
def tag_definitions (dict : List DictEntry) : List (String × String) :=
  dict.foldl tagDefStep []

/-- Python `defined_tags = set(tag_definitions.keys())`. -/
def defined_tags (dict : List DictEntry) : List String :=
  (tag_definitions dict).map Prod.fst

/-- Python `undefined_tags = all_tags - defined_tags` (set difference). -/
def undefined_tags_list (st : Store) : List String :=
  (collect_all_tags_list st).filter (fun t => !((defined_tags st.dictionary).contains t))

/-! ### Suggestion Generator -/

/-- The `suggestion_data` record built by `generate_definition_suggestions`. -/
def mkDefineSuggestion (tag : String) : Suggestion :=
  { stype := "define_tag"
    sourceTag := none
    targetTag := some tag
    reason := "このタグの定義を明確にすることで、知識体系の精度が向上します。"
    definitionProposal :=
      some ("「" ++ tag ++ "」は、図書館の蔵書で頻繁に使用されていますが、まだ明確な定義がありません。")
    status := "pending"
    reviewedAt := false }

/-- The `suggestion_data` record built by `generate_integration_suggestions`. -/
def mkIntegrateSuggestion (source target : String) : Suggestion :=
  { stype := "integrate_tags"
    sourceTag := some source
    targetTag := some target
    reason := "タグ名に包含関係があり、意味が類似している可能性があります。"
    definitionProposal := none
    status := "pending"
    reviewedAt := false }

/-- The duplicate query of the definition policy:
`where('targetTag','==',tag).where('type','==','define_tag')` —
note there is no filter on `status`. -/
def defKeyB (tag : String) (s : Suggestion) : Bool :=
  s.targetTag == some tag && s.stype == "define_tag"

/-- The duplicate query of the integration policy:
`where('sourceTag','==',source).where('targetTag','==',target)
.where('type','==','integrate_tags')` — again no `status` filter. -/
def intKeyB (source target : String) (s : Suggestion) : Bool :=
  s.sourceTag == some source && s.targetTag == some target && s.stype == "integrate_tags"

/-- Loop of `generate_definition_suggestions(undefined_tags)`: for each tag in
turn, insert a fresh pending suggestion unless the duplicate query finds
an existing record with the same key. -/
def generate_definition_suggestions : List String → List Suggestion → List Suggestion
  | [], store => store
  | tag :: rest, store =>
    if store.any (defKeyB tag) then generate_definition_suggestions rest store
    else generate_definition_suggestions rest (store ++ [mkDefineSuggestion tag])

/-- The index pairs `(tags[i], tags[j])`, `i < j`, in the order the two
nested `for` loops of `generate_integration_suggestions` visit them. -/
def upPairs : List String → List (String × String)
  | [] => []
  | t :: rest => rest.map (fun u => (t, u)) ++ upPairs rest

/-- Python `source = tag1 if len(tag1) < len(tag2) else tag2`. -/
def srcOf (tag1 tag2 : String) : String :=
  if tag1.length < tag2.length then tag1 else tag2

/-- Python `target = tag2 if len(tag1) < len(tag2) else tag1`. -/
def tgtOf (tag1 tag2 : String) : String :=
  if tag1.length < tag2.length then tag2 else tag1

/-- One iteration of the inner loop of `generate_integration_suggestions`:
on a substring match, orient the pair shorter-to-longer and insert unless
the duplicate query finds an existing record with the same key. -/
def intStep (store : List Suggestion) (tag1 tag2 : String) : List Suggestion :=
  if strIn tag1 tag2 || strIn tag2 tag1 then
    if store.any (intKeyB (srcOf tag1 tag2) (tgtOf tag1 tag2)) then store
    else store ++ [mkIntegrateSuggestion (srcOf tag1 tag2) (tgtOf tag1 tag2)]
  else store

/-- The nested loops, folded over the pair list. -/
def genIntPairs : List (String × String) → List Suggestion → List Suggestion
  | [], store => store
  | (t1, t2) :: rest, store => genIntPairs rest (intStep store t1 t2)

/-- Loop of `generate_integration_suggestions(tag_definitions)`: run the pair
loop over `list(tag_definitions.keys())`. -/
def generate_integration_suggestions (tagDefs : List (String × String))
    (store : List Suggestion) : List Suggestion :=
  genIntPairs (upPairs (tagDefs.map Prod.fst)) store

/-- The `/generate-suggestions` endpoint: collect, run the definition
policy, then the integration policy; reply with a fixed success body. -/
def generate_suggestions_endpoint (st : Store) : Response × Store :=
  (⟨"success", "最適化提案の生成が完了しました。", 200⟩,
    { st with suggestions :=
        (generate_integration_suggestions (tag_definitions st.dictionary)
          (generate_definition_suggestions (undefined_tags_list st) st.suggestions)) })

/-! ### Integration Executor (`execute_tag_integration`) -/

/-- Python `list(set([target if c == source else c for c in l]))`: the set is
modelled by `dedup` (only set-level facts about the result are used). -/
def replaceDedup (source target : String) (l : List String) : List String :=
  (l.map (fun c => if c = source then target else c)).dedup

/-- The guarded rewrite of one tag list: `if source in l:` rewrite and
deduplicate, else leave alone.  A `None` source is never a member of a
list of strings, so nothing happens (this is the only missing-field case
the service's own suggestion records can produce: `define_tag` records
carry neither field). -/
def updateColl (source target : Option String) (l : List String) : List String :=
  match source, target with
  | some s, some t => if s ∈ l then replaceDedup s t l else l
  | _, _ => l

/-- Rewrite one article's `categories` and `tags` independently. -/
def updateArticle (source target : Option String) (a : Article) : Article :=
  { categories := updateColl source target a.categories
    tags := updateColl source target a.tags }

/-- Rewrite one dictionary entry's `constituentTags`. -/
def updateEntry (source target : Option String) (e : DictEntry) : DictEntry :=
  { e with constituentTags := updateColl source target e.constituentTags }

/-- Remove the first element satisfying `p`, if any. -/
def removeFirstBy {α : Type} (p : α → Bool) : List α → List α
  | [] => []
  | x :: xs => if p x then xs else x :: removeFirstBy p xs

/-- Query `where('termName','==',source).limit(1)` then delete: drop the first
entry whose `termName` equals `source`.  Equality against a null value
matches no string field, so a `None` source deletes nothing. -/
def deleteSourceEntry (source : Option String) (dict : List DictEntry) : List DictEntry :=
  match source with
  | none => dict
  | some s => removeFirstBy (fun e => e.termName == s) dict

/-- Body of `execute_tag_integration(source, target)`: rewrite every article,
rewrite every dictionary entry's `constituentTags`, then delete the
dictionary entry keyed by `source`. -/
def execute_tag_integration (source target : Option String) (st : Store) : Store :=
  { st with
    articles := st.articles.map (updateArticle source target)
    dictionary := deleteSourceEntry source (st.dictionary.map (updateEntry source target)) }

/-- The terminal status update written by the endpoint. -/
def markCompleted (s : Suggestion) : Suggestion :=
  { s with status := "completed", reviewedAt := true }

/-- The out-of-scope reviewer action: approve a pending suggestion. -/
def markApproved (s : Suggestion) : Suggestion :=
  { s with status := "approved" }

/-- The `/execute-integration` endpoint: reject unless the suggestion
exists and is `approved` (nothing else is checked); otherwise run the
integration with the record's `sourceTag` / `targetTag` fields and then
mark the record completed. -/
def execute_integration_endpoint (st : Store) (suggestionId : Nat) : Response × Store :=
  match st.suggestions[suggestionId]? with
  | none => (⟨"error", "承認済みの有効な提案ではありません。", 400⟩, st)
  | some sugg =>
    if sugg.status = "approved" then
      let st1 := execute_tag_integration sugg.sourceTag sugg.targetTag st
      (⟨"success", "タグの統合が完了しました。", 200⟩,
        { st1 with suggestions := st1.suggestions.set suggestionId (markCompleted sugg) })
    else (⟨"error", "承認済みの有効な提案ではありません。", 400⟩, st)

/-! ### Lemmas about the per-collection rewrite -/

theorem mem_replaceDedup {s t x : String} {l : List String} :
    x ∈ replaceDedup s t l ↔ ∃ c ∈ l, (if c = s then t else c) = x := by
  simp [replaceDedup, List.mem_dedup, List.mem_map]

theorem nodup_replaceDedup (s t : String) (l : List String) :
    (replaceDedup s t l).Nodup :=
  List.nodup_dedup _

theorem source_not_mem_replaceDedup {s t : String} (hst : s ≠ t) (l : List String) :
    s ∉ replaceDedup s t l := by
  rw [mem_replaceDedup]
  rintro ⟨c, hc, hceq⟩
  by_cases h : c = s
  · rw [if_pos h] at hceq; exact hst hceq.symm
  · rw [if_neg h] at hceq; exact h hceq

theorem toFinset_replaceDedup {s t : String} {l : List String} (hs : s ∈ l) :
    (replaceDedup s t l).toFinset = (l.toFinset \ {s}) ∪ {t} := by
  ext x
  rw [List.mem_toFinset, mem_replaceDedup]
  simp only [Finset.mem_union, Finset.mem_sdiff, Finset.mem_singleton, List.mem_toFinset]
  constructor
  · rintro ⟨c, hc, hceq⟩
    by_cases h : c = s
    · rw [if_pos h] at hceq; right; exact hceq.symm
    · rw [if_neg h] at hceq; left; exact ⟨hceq ▸ hc, hceq ▸ h⟩
  · rintro (⟨hx, hxs⟩ | rfl)
    · exact ⟨x, hx, if_neg hxs⟩
    · exact ⟨s, hs, if_pos rfl⟩

theorem source_not_mem_updateColl {s t : String} (hst : s ≠ t) (l : List String) :
    s ∉ updateColl (some s) (some t) l := by
  simp only [updateColl]
  by_cases h : s ∈ l
  · rw [if_pos h]; exact source_not_mem_replaceDedup hst l
  · rw [if_neg h]; exact h

theorem updateColl_of_not_mem {s t : String} {l : List String} (h : s ∉ l) :
    updateColl (some s) (some t) l = l := by
  simp only [updateColl]; rw [if_neg h]

theorem updateArticle_fix {s t : String} {a : Article}
    (h1 : s ∉ a.categories) (h2 : s ∉ a.tags) :
    updateArticle (some s) (some t) a = a := by
  simp only [updateArticle, updateColl_of_not_mem h1, updateColl_of_not_mem h2]

theorem updateEntry_fix {s t : String} {e : DictEntry}
    (h : s ∉ e.constituentTags) :
    updateEntry (some s) (some t) e = e := by
  simp only [updateEntry, updateColl_of_not_mem h]

theorem updateColl_none_source (target : Option String) (l : List String) :
    updateColl none target l = l := by
  cases target <;> rfl

theorem updateArticle_none_source (target : Option String) (a : Article) :
    updateArticle none target a = a := by
  cases a
  simp only [updateArticle, updateColl_none_source]

theorem updateEntry_none_source (target : Option String) (e : DictEntry) :
    updateEntry none target e = e := by
  cases e
  simp only [updateEntry, updateColl_none_source]

theorem updateEntry_termName (source target : Option String) (e : DictEntry) :
    (updateEntry source target e).termName = e.termName := rfl

/-! ### Lemmas about `removeFirstBy` -/

theorem mem_of_mem_removeFirstBy {α : Type} {p : α → Bool} :
    ∀ {l : List α} {x : α}, x ∈ removeFirstBy p l → x ∈ l := by
  intro l
  induction l with
  | nil => intro x h; exact absurd h (by simp [removeFirstBy])
  | cons y ys ih =>
    intro x h
    simp only [removeFirstBy] at h
    split at h
    · exact List.mem_cons_of_mem _ h
    · rcases List.mem_cons.mp h with rfl | h'
      · exact List.mem_cons_self _ _
      · exact List.mem_cons_of_mem _ (ih h')

theorem removeFirstBy_eq_self {α : Type} {p : α → Bool} :
    ∀ {l : List α}, (∀ x ∈ l, p x = false) → removeFirstBy p l = l := by
  intro l
  induction l with
  | nil => intro _; rfl
  | cons y ys ih =>
    intro h
    simp only [removeFirstBy]
    rw [if_neg (by simp [h y (List.mem_cons_self y ys)]),
      ih (fun x hx => h x (List.mem_cons_of_mem _ hx))]

theorem termName_ne_of_mem_removeFirst {s : String} :
    ∀ {l : List DictEntry}, (l.map DictEntry.termName).Nodup →
      ∀ e ∈ removeFirstBy (fun e => e.termName == s) l, e.termName ≠ s := by
  intro l
  induction l with
  | nil => intro _ e he; exact absurd he (by simp [removeFirstBy])
  | cons y ys ih =>
    intro hnd e he
    simp only [List.map_cons, List.nodup_cons] at hnd
    simp only [removeFirstBy] at he
    split at he
    · rename_i hy
      intro hes
      apply hnd.1
      have hys : y.termName = s := by simpa using hy
      rw [hys, ← hes]
      exact List.mem_map_of_mem DictEntry.termName he
    · rename_i hy
      rcases List.mem_cons.mp he with rfl | h'
      · simpa using hy
      · exact ih hnd.2 e h'

theorem zip_map_self {α β : Type} (l : List α) (f : α → β) :
    l.zip (l.map f) = l.map (fun a => (a, f a)) := by
  induction l with
  | nil => rfl
  | cons a as ih => simp [ih]

/-! ### Claim theorems (first batch) -/

/-- C4: for every Article whose `categories` or `tags` contain `sourceTag`,
the rewrite performed by `execute_tag_integration` replaces every
occurrence of `sourceTag` by `targetTag` and deduplicates: the resulting
collection, viewed as a set, is `(old \ {source}) ∪ {target}`, with no
duplicate entries, including when `targetTag` was already present. -/
theorem c4_merge_rewrite (s t : String) (st : Store) (p : Article × Article)
    (hp : p ∈ st.articles.zip (execute_tag_integration (some s) (some t) st).articles) :
    (s ∈ p.1.tags →
      p.2.tags.toFinset = (p.1.tags.toFinset \ {s}) ∪ {t} ∧ p.2.tags.Nodup) ∧
    (s ∈ p.1.categories →
      p.2.categories.toFinset = (p.1.categories.toFinset \ {s}) ∪ {t} ∧
        p.2.categories.Nodup) := by
  rw [show (execute_tag_integration (some s) (some t) st).articles
      = st.articles.map (updateArticle (some s) (some t)) from rfl,
    zip_map_self] at hp
  rcases List.mem_map.mp hp with ⟨a, ha, rfl⟩
  constructor
  · intro hs
    have : (updateArticle (some s) (some t) a).tags = replaceDedup s t a.tags := by
      simp only [updateArticle, updateColl]; rw [if_pos hs]
    rw [this]
    exact ⟨toFinset_replaceDedup hs, nodup_replaceDedup s t a.tags⟩
  · intro hs
    have : (updateArticle (some s) (some t) a).categories = replaceDedup s t a.categories := by
      simp only [updateArticle, updateColl]; rw [if_pos hs]
    rw [this]
    exact ⟨toFinset_replaceDedup hs, nodup_replaceDedup s t a.categories⟩

/-- C4 witness: the article `tags = ["AI", "研究"]`, also already carrying
`"AI司書"`, merged with source `"AI"`, target `"AI司書"`. -/
theorem c4_merge_rewrite_witness :
    ("AI" ∈ (Article.mk ["研究"] ["AI", "AI司書", "研究"]).tags) ∧
      (∀ p ∈ [Article.mk ["研究"] ["AI", "AI司書", "研究"]].zip
          (execute_tag_integration (some "AI") (some "AI司書")
            (Store.mk [Article.mk ["研究"] ["AI", "AI司書", "研究"]] [] [])).articles,
        ("AI" ∈ p.1.tags →
          p.2.tags.toFinset = (p.1.tags.toFinset \ {"AI"}) ∪ {"AI司書"} ∧ p.2.tags.Nodup) ∧
        ("AI" ∈ p.1.categories →
          p.2.categories.toFinset = (p.1.categories.toFinset \ {"AI"}) ∪ {"AI司書"} ∧
            p.2.categories.Nodup)) :=
  ⟨by decide, fun p hp =>
    c4_merge_rewrite "AI" "AI司書"
      (Store.mk [Article.mk ["研究"] ["AI", "AI司書", "研究"]] [] []) p hp⟩

/-- C6: if the suggestion referenced by `suggestionId` does not exist or
its status is not `approved`, the endpoint answers with the 400 error
response and the store is left completely unmodified. -/
theorem c6_precondition (st : Store) (sid : Nat)
    (h : st.suggestions[sid]? = none ∨
      ∃ sugg, st.suggestions[sid]? = some sugg ∧ sugg.status ≠ "approved") :
    (execute_integration_endpoint st sid).1.status = "error" ∧
    (execute_integration_endpoint st sid).1.code = 400 ∧
    (execute_integration_endpoint st sid).2 = st := by
  rcases h with h | ⟨sugg, hget, hstat⟩
  · simp [execute_integration_endpoint, h]
  · simp [execute_integration_endpoint, hget, hstat]

/-- C6 witness: a store holding one still-`pending` suggestion. -/
theorem c6_precondition_witness :
    ((Store.mk [] [] [mkIntegrateSuggestion "AI" "AI司書"]).suggestions[0]? = none ∨
      ∃ sugg, (Store.mk [] [] [mkIntegrateSuggestion "AI" "AI司書"]).suggestions[0]?
          = some sugg ∧ sugg.status ≠ "approved") ∧
    ((execute_integration_endpoint (Store.mk [] [] [mkIntegrateSuggestion "AI" "AI司書"]) 0).1.status
        = "error" ∧
      (execute_integration_endpoint (Store.mk [] [] [mkIntegrateSuggestion "AI" "AI司書"]) 0).1.code
        = 400 ∧
      (execute_integration_endpoint (Store.mk [] [] [mkIntegrateSuggestion "AI" "AI司書"]) 0).2
        = Store.mk [] [] [mkIntegrateSuggestion "AI" "AI司書"]) :=
  ⟨Or.inr ⟨mkIntegrateSuggestion "AI" "AI司書", by decide⟩,
    c6_precondition (Store.mk [] [] [mkIntegrateSuggestion "AI" "AI司書"]) 0
      (Or.inr ⟨mkIntegrateSuggestion "AI" "AI司書", by decide⟩)⟩

/-- C10 counterexample: the claim asserts `define_tag` suggestions carry
no `sourceTag`/`targetTag` fields and the rewrite runs with null source
and null target; but the `define_tag` records this service creates do
carry `targetTag` (the tag being defined), so only `sourceTag` is null. -/
theorem c10_counterexample :
    (mkDefineSuggestion "AI").stype = "define_tag" ∧
      (mkDefineSuggestion "AI").sourceTag = none ∧
      (mkDefineSuggestion "AI").targetTag ≠ none := by
  decide

/-- C10 (amended): the executor's entry check tests only existence and
`status == "approved"`, never the suggestion's `type`: an approved
`define_tag` suggestion (which has no `sourceTag` field, though it does
carry `targetTag`) is accepted, the corpus rewrite runs with a null
source — so no document matches and the corpus is unchanged — and the
suggestion is marked `completed` with `reviewedAt` stamped. -/
theorem c10_type_blind_execution (st : Store) (sid : Nat) (sugg : Suggestion)
    (hget : st.suggestions[sid]? = some sugg)
    (happr : sugg.status = "approved")
    (hty : sugg.stype = "define_tag")
    (hsrc : sugg.sourceTag = none) :
    (execute_integration_endpoint st sid).1.status = "success" ∧
    (execute_integration_endpoint st sid).2.articles = st.articles ∧
    (execute_integration_endpoint st sid).2.dictionary = st.dictionary ∧
    (execute_integration_endpoint st sid).2.suggestions =
      st.suggestions.set sid (markCompleted sugg) := by
  have h1 : st.articles.map (updateArticle none sugg.targetTag) = st.articles := by
    rw [show (updateArticle none sugg.targetTag) = id from
        funext fun a => updateArticle_none_source _ a,
      List.map_id]
  have h2 : st.dictionary.map (updateEntry none sugg.targetTag) = st.dictionary := by
    rw [show (updateEntry none sugg.targetTag) = id from
        funext fun e => updateEntry_none_source _ e,
      List.map_id]
  have hexec : execute_tag_integration sugg.sourceTag sugg.targetTag st = st := by
    rw [hsrc]
    simp only [execute_tag_integration, deleteSourceEntry, h1, h2]
  simp [execute_integration_endpoint, hget, happr, hexec]

/-- C10 witness: one approved `define_tag` suggestion over a corpus that
even uses the tag; the corpus survives unchanged and the record is
completed. -/
theorem c10_type_blind_execution_witness :
    ((Store.mk [Article.mk ["AI"] ["AI"]] [DictEntry.mk "AI" "d" []]
        [markApproved (mkDefineSuggestion "AI")]).suggestions[0]?
      = some (markApproved (mkDefineSuggestion "AI"))) ∧
    (markApproved (mkDefineSuggestion "AI")).status = "approved" ∧
    ((execute_integration_endpoint (Store.mk [Article.mk ["AI"] ["AI"]]
          [DictEntry.mk "AI" "d" []] [markApproved (mkDefineSuggestion "AI")]) 0).1.status
        = "success" ∧
      (execute_integration_endpoint (Store.mk [Article.mk ["AI"] ["AI"]]
          [DictEntry.mk "AI" "d" []] [markApproved (mkDefineSuggestion "AI")]) 0).2.articles
        = [Article.mk ["AI"] ["AI"]] ∧
      (execute_integration_endpoint (Store.mk [Article.mk ["AI"] ["AI"]]
          [DictEntry.mk "AI" "d" []] [markApproved (mkDefineSuggestion "AI")]) 0).2.dictionary
        = [DictEntry.mk "AI" "d" []] ∧
      (execute_integration_endpoint (Store.mk [Article.mk ["AI"] ["AI"]]
          [DictEntry.mk "AI" "d" []] [markApproved (mkDefineSuggestion "AI")]) 0).2.suggestions
        = [markApproved (mkDefineSuggestion "AI")].set 0
            (markCompleted (markApproved (mkDefineSuggestion "AI")))) :=
  ⟨by decide, by decide,
    c10_type_blind_execution
      (Store.mk [Article.mk ["AI"] ["AI"]] [DictEntry.mk "AI" "d" []]
        [markApproved (mkDefineSuggestion "AI")]) 0
      (markApproved (mkDefineSuggestion "AI")) (by decide) (by decide) (by decide)
      (by decide)⟩

/-- C1: after a successful run of the executor on an approved
`integrate_tags` suggestion with distinct `sourceTag` and `targetTag`,
no article's `categories` or `tags` and no dictionary entry's
`constituentTags` contain `sourceTag`, and no dictionary entry keyed by
`termName == sourceTag` remains (the dictionary delete is `limit(1)`,
so the data-model invariant that `termName` is unique is assumed). -/
theorem c1_integration_postcondition (st : Store) (sid : Nat) (sugg : Suggestion)
    (s t : String)
    (hget : st.suggestions[sid]? = some sugg)
    (happr : sugg.status = "approved")
    (hty : sugg.stype = "integrate_tags")
    (hsrc : sugg.sourceTag = some s) (htgt : sugg.targetTag = some t)
    (hne : s ≠ t)
    (hnd : (st.dictionary.map DictEntry.termName).Nodup) :
    (execute_integration_endpoint st sid).1.status = "success" ∧
    (∀ a ∈ (execute_integration_endpoint st sid).2.articles,
      s ∉ a.categories ∧ s ∉ a.tags) ∧
    (∀ e ∈ (execute_integration_endpoint st sid).2.dictionary,
      s ∉ e.constituentTags ∧ e.termName ≠ s) := by
  have hend : execute_integration_endpoint st sid =
      (⟨"success", "タグの統合が完了しました。", 200⟩,
        { execute_tag_integration (some s) (some t) st with
          suggestions := (execute_tag_integration (some s) (some t) st).suggestions.set sid
            (markCompleted sugg) }) := by
    simp [execute_integration_endpoint, hget, happr, hsrc, htgt]
  rw [hend]
  refine ⟨rfl, ?_, ?_⟩
  · intro a ha
    rcases List.mem_map.mp ha with ⟨a0, ha0, rfl⟩
    exact ⟨source_not_mem_updateColl hne _, source_not_mem_updateColl hne _⟩
  · intro e he
    constructor
    · have he' := mem_of_mem_removeFirstBy he
      rcases List.mem_map.mp he' with ⟨e0, he0, rfl⟩
      exact source_not_mem_updateColl hne _
    · apply termName_ne_of_mem_removeFirst _ e he
      have hcongr : st.dictionary.map (fun e => (updateEntry (some s) (some t) e).termName)
          = st.dictionary.map DictEntry.termName :=
        List.map_congr_left (fun e _ => updateEntry_termName _ _ e)
      rw [List.map_map]
      exact hcongr ▸ hnd

/-- C1 witness: a corpus with `"AI"` in article tags and categories, in
another entry's `constituentTags`, and as a dictionary key, merged into
`"AI司書"` through an approved suggestion. -/
theorem c1_integration_postcondition_witness :
    ((Store.mk [Article.mk ["AI"] ["AI", "研究"]]
        [DictEntry.mk "AI" "dA" [], DictEntry.mk "AI司書" "dB" ["AI"]]
        [markApproved (mkIntegrateSuggestion "AI" "AI司書")]).suggestions[0]?
      = some (markApproved (mkIntegrateSuggestion "AI" "AI司書"))) ∧
    ("AI" : String) ≠ "AI司書" ∧
    (((Store.mk [Article.mk ["AI"] ["AI", "研究"]]
        [DictEntry.mk "AI" "dA" [], DictEntry.mk "AI司書" "dB" ["AI"]]
        [markApproved (mkIntegrateSuggestion "AI" "AI司書")]).dictionary.map
          DictEntry.termName).Nodup) ∧
    ((execute_integration_endpoint (Store.mk [Article.mk ["AI"] ["AI", "研究"]]
        [DictEntry.mk "AI" "dA" [], DictEntry.mk "AI司書" "dB" ["AI"]]
        [markApproved (mkIntegrateSuggestion "AI" "AI司書")]) 0).1.status = "success" ∧
      (∀ a ∈ (execute_integration_endpoint (Store.mk [Article.mk ["AI"] ["AI", "研究"]]
          [DictEntry.mk "AI" "dA" [], DictEntry.mk "AI司書" "dB" ["AI"]]
          [markApproved (mkIntegrateSuggestion "AI" "AI司書")]) 0).2.articles,
        "AI" ∉ a.categories ∧ "AI" ∉ a.tags) ∧
      (∀ e ∈ (execute_integration_endpoint (Store.mk [Article.mk ["AI"] ["AI", "研究"]]
          [DictEntry.mk "AI" "dA" [], DictEntry.mk "AI司書" "dB" ["AI"]]
          [markApproved (mkIntegrateSuggestion "AI" "AI司書")]) 0).2.dictionary,
        "AI" ∉ e.constituentTags ∧ e.termName ≠ "AI")) :=
  ⟨by decide, by decide, by decide,
    c1_integration_postcondition
      (Store.mk [Article.mk ["AI"] ["AI", "研究"]]
        [DictEntry.mk "AI" "dA" [], DictEntry.mk "AI司書" "dB" ["AI"]]
        [markApproved (mkIntegrateSuggestion "AI" "AI司書")]) 0
      (markApproved (mkIntegrateSuggestion "AI" "AI司書")) "AI" "AI司書"
      (by decide) (by decide) (by decide) (by decide) (by decide) (by decide) (by decide)⟩

/-- C5: running `execute_tag_integration` twice in sequence with the
same distinct `(sourceTag, targetTag)` yields the same corpus state as
running it once (under the data-model invariant of unique `termName`):
the rewrite finds nothing left to change and the source entry is gone. -/
theorem c5_reentrant_execution (s t : String) (st : Store) (hne : s ≠ t)
    (hnd : (st.dictionary.map DictEntry.termName).Nodup) :
    execute_tag_integration (some s) (some t)
        (execute_tag_integration (some s) (some t) st) =
      execute_tag_integration (some s) (some t) st := by
  have hndE : (((st.dictionary.map (updateEntry (some s) (some t))).map
      DictEntry.termName)).Nodup := by
    have hcongr : st.dictionary.map (fun e => (updateEntry (some s) (some t) e).termName)
        = st.dictionary.map DictEntry.termName :=
      List.map_congr_left (fun e _ => updateEntry_termName _ _ e)
    rw [List.map_map]
    exact hcongr ▸ hnd
  have hart : ∀ a ∈ (execute_tag_integration (some s) (some t) st).articles,
      updateArticle (some s) (some t) a = a := by
    intro a ha
    rcases List.mem_map.mp ha with ⟨a0, ha0, rfl⟩
    exact updateArticle_fix (source_not_mem_updateColl hne _)
      (source_not_mem_updateColl hne _)
  have hdictA : ∀ e ∈ (execute_tag_integration (some s) (some t) st).dictionary,
      updateEntry (some s) (some t) e = e := by
    intro e he
    rcases List.mem_map.mp (mem_of_mem_removeFirstBy he) with ⟨e0, he0, rfl⟩
    exact updateEntry_fix (source_not_mem_updateColl hne _)
  have hdictB : ∀ e ∈ (execute_tag_integration (some s) (some t) st).dictionary,
      (e.termName == s) = false := by
    intro e he
    simpa using termName_ne_of_mem_removeFirst hndE e he
  have h1 : (execute_tag_integration (some s) (some t) st).articles.map
      (updateArticle (some s) (some t))
      = (execute_tag_integration (some s) (some t) st).articles := by
    rw [List.map_congr_left hart]
    exact List.map_id' _
  have h2 : (execute_tag_integration (some s) (some t) st).dictionary.map
      (updateEntry (some s) (some t))
      = (execute_tag_integration (some s) (some t) st).dictionary := by
    rw [List.map_congr_left hdictA]
    exact List.map_id' _
  have h3 : removeFirstBy (fun e => e.termName == s)
      (execute_tag_integration (some s) (some t) st).dictionary
      = (execute_tag_integration (some s) (some t) st).dictionary :=
    removeFirstBy_eq_self hdictB
  show ({ execute_tag_integration (some s) (some t) st with
    articles := (execute_tag_integration (some s) (some t) st).articles.map
      (updateArticle (some s) (some t))
    dictionary := deleteSourceEntry (some s)
      ((execute_tag_integration (some s) (some t) st).dictionary.map
        (updateEntry (some s) (some t))) } : Store)
    = execute_tag_integration (some s) (some t) st
  rw [h1, show deleteSourceEntry (some s)
      ((execute_tag_integration (some s) (some t) st).dictionary.map
        (updateEntry (some s) (some t)))
      = removeFirstBy (fun e => e.termName == s)
        ((execute_tag_integration (some s) (some t) st).dictionary.map
          (updateEntry (some s) (some t))) from rfl, h2, h3]

/-- C5 witness: the same corpus as the C1 witness, integrated twice. -/
theorem c5_reentrant_execution_witness :
    ("AI" : String) ≠ "AI司書" ∧
    (((Store.mk [Article.mk ["AI"] ["AI", "研究"]]
        [DictEntry.mk "AI" "dA" [], DictEntry.mk "AI司書" "dB" ["AI"]]
        []).dictionary.map DictEntry.termName).Nodup) ∧
    execute_tag_integration (some "AI") (some "AI司書")
        (execute_tag_integration (some "AI") (some "AI司書")
          (Store.mk [Article.mk ["AI"] ["AI", "研究"]]
            [DictEntry.mk "AI" "dA" [], DictEntry.mk "AI司書" "dB" ["AI"]] []))
      = execute_tag_integration (some "AI") (some "AI司書")
          (Store.mk [Article.mk ["AI"] ["AI", "研究"]]
            [DictEntry.mk "AI" "dA" [], DictEntry.mk "AI司書" "dB" ["AI"]] []) :=
  ⟨by decide, by decide,
    c5_reentrant_execution "AI" "AI司書"
      (Store.mk [Article.mk ["AI"] ["AI", "研究"]]
        [DictEntry.mk "AI" "dA" [], DictEntry.mk "AI司書" "dB" ["AI"]] [])
      (by decide) (by decide)⟩

/-! ### Lemmas about the substring test -/

theorem charsStartWith_length {n h : List Char} (hs : charsStartWith n h = true) :
    n.length ≤ h.length := by
  induction n generalizing h with
  | nil => simp
  | cons a as ih =>
    cases h with
    | nil => simp [charsStartWith] at hs
    | cons b bs =>
      simp only [charsStartWith, Bool.and_eq_true] at hs
      simpa [List.length_cons] using Nat.succ_le_succ (ih hs.2)

theorem charsStartWith_eq_of_length {n h : List Char} (hs : charsStartWith n h = true)
    (hl : n.length = h.length) : n = h := by
  induction n generalizing h with
  | nil =>
    cases h with
    | nil => rfl
    | cons b bs => simp at hl
  | cons a as ih =>
    cases h with
    | nil => simp [charsStartWith] at hs
    | cons b bs =>
      simp only [charsStartWith, Bool.and_eq_true, beq_iff_eq] at hs
      simp only [List.length_cons, Nat.add_right_cancel_iff] at hl
      rw [hs.1, ih hs.2 hl]

theorem charsContain_length {hay n : List Char} (hc : charsContain hay n = true) :
    n.length ≤ hay.length := by
  induction hay with
  | nil => exact charsStartWith_length hc
  | cons h hs ih =>
    rcases Bool.or_eq_true_iff.mp hc with h1 | h2
    · exact charsStartWith_length h1
    · exact (ih h2).trans (by simp)

theorem charsContain_eq_of_length {hay n : List Char} (hc : charsContain hay n = true)
    (hl : n.length = hay.length) : n = hay := by
  induction hay with
  | nil => exact List.length_eq_zero.mp hl
  | cons h hs ih =>
    rcases Bool.or_eq_true_iff.mp hc with h1 | h2
    · exact charsStartWith_eq_of_length h1 hl
    · have := charsContain_length h2
      simp only [List.length_cons] at hl
      omega

theorem strIn_length {a b : String} (h : strIn a b = true) : a.length ≤ b.length :=
  charsContain_length h

theorem strIn_eq_of_length {a b : String} (h : strIn a b = true)
    (hl : a.length = b.length) : a = b := by
  have hd : a.data = b.data := charsContain_eq_of_length h hl
  exact congrArg String.mk hd

theorem length_ne_of_match {a b : String} (hab : a ≠ b)
    (hm : strIn a b = true ∨ strIn b a = true) : a.length ≠ b.length := by
  intro hl
  rcases hm with h | h
  · exact hab (strIn_eq_of_length h hl)
  · exact hab ((strIn_eq_of_length h hl.symm).symm)

theorem srcOf_comm {a b : String} (h : a.length ≠ b.length) : srcOf a b = srcOf b a := by
  unfold srcOf
  rcases Nat.lt_or_ge a.length b.length with hlt | hge
  · rw [if_pos hlt, if_neg (by omega)]
  · have hbl : b.length < a.length := by omega
    rw [if_neg (by omega), if_pos hbl]

theorem tgtOf_comm {a b : String} (h : a.length ≠ b.length) : tgtOf a b = tgtOf b a := by
  unfold tgtOf
  rcases Nat.lt_or_ge a.length b.length with hlt | hge
  · rw [if_pos hlt, if_neg (by omega)]
  · have hbl : b.length < a.length := by omega
    rw [if_neg (by omega), if_pos hbl]

theorem srcOf_length_lt {a b : String} (h : a.length ≠ b.length) :
    (srcOf a b).length < (tgtOf a b).length := by
  unfold srcOf tgtOf
  rcases Nat.lt_or_ge a.length b.length with hlt | hge
  · rw [if_pos hlt, if_pos hlt]; exact hlt
  · have hbl : b.length < a.length := by omega
    rw [if_neg (by omega), if_neg (by omega)]; exact hbl

/-! ### Lemmas about the two generator policies -/

theorem mem_intStep_of_mem {store : List Suggestion} {x : Suggestion} (t1 t2 : String)
    (hx : x ∈ store) : x ∈ intStep store t1 t2 := by
  simp only [intStep]
  split
  · split
    · exact hx
    · exact List.mem_append_left _ hx
  · exact hx

theorem mem_genIntPairs_of_mem :
    ∀ {pairs : List (String × String)} {store : List Suggestion} {x : Suggestion},
      x ∈ store → x ∈ genIntPairs pairs store := by
  intro pairs
  induction pairs with
  | nil => intro store x hx; exact hx
  | cons p rest ih =>
    intro store x hx
    obtain ⟨t1, t2⟩ := p
    exact ih (mem_intStep_of_mem t1 t2 hx)

theorem genIntPairs_sound :
    ∀ {pairs : List (String × String)} {store : List Suggestion} {x : Suggestion},
      x ∈ genIntPairs pairs store →
        x ∈ store ∨ ∃ p ∈ pairs, (strIn p.1 p.2 = true ∨ strIn p.2 p.1 = true) ∧
          x = mkIntegrateSuggestion (srcOf p.1 p.2) (tgtOf p.1 p.2) := by
  intro pairs
  induction pairs with
  | nil => intro store x hx; exact Or.inl hx
  | cons p rest ih =>
    intro store x hx
    obtain ⟨t1, t2⟩ := p
    rcases ih hx with hx' | ⟨q, hq, hqm, hqe⟩
    · simp only [intStep] at hx'
      split at hx'
      · rename_i hmatch
        split at hx'
        · exact Or.inl hx'
        · rcases List.mem_append.mp hx' with h | h
          · exact Or.inl h
          · right
            refine ⟨(t1, t2), List.mem_cons_self _ _, ?_, ?_⟩
            · simpa using hmatch
            · simpa using h
      · exact Or.inl hx'
    · exact Or.inr ⟨q, List.mem_cons_of_mem _ hq, hqm, hqe⟩

theorem genIntPairs_covered :
    ∀ {pairs : List (String × String)} {t1 t2 : String}, (t1, t2) ∈ pairs →
      (strIn t1 t2 = true ∨ strIn t2 t1 = true) → ∀ store : List Suggestion,
        ∃ x ∈ genIntPairs pairs store, intKeyB (srcOf t1 t2) (tgtOf t1 t2) x = true := by
  intro pairs
  induction pairs with
  | nil => intro t1 t2 h; cases h
  | cons p rest ih =>
    intro t1 t2 hp hm store
    obtain ⟨u1, u2⟩ := p
    simp only [genIntPairs]
    rcases List.mem_cons.mp hp with heq | hp'
    · have h1 : t1 = u1 := congrArg Prod.fst heq
      have h2 : t2 = u2 := congrArg Prod.snd heq
      subst h1
      subst h2
      have hkey : ∃ x ∈ intStep store t1 t2,
          intKeyB (srcOf t1 t2) (tgtOf t1 t2) x = true := by
        simp only [intStep]
        rw [if_pos (by simpa using hm)]
        by_cases hany : store.any (intKeyB (srcOf t1 t2) (tgtOf t1 t2)) = true
        · rw [if_pos hany]
          exact List.any_eq_true.mp hany
        · rw [if_neg hany]
          refine ⟨mkIntegrateSuggestion (srcOf t1 t2) (tgtOf t1 t2),
            List.mem_append_right _ (by simp), ?_⟩
          simp [intKeyB, mkIntegrateSuggestion]
      rcases hkey with ⟨x, hx, hk⟩
      exact ⟨x, mem_genIntPairs_of_mem hx, hk⟩
    · exact ih hp' hm (intStep store u1 u2)

theorem genIntPairs_skip :
    ∀ {pairs : List (String × String)} {store : List Suggestion},
      (∀ p ∈ pairs, (strIn p.1 p.2 = true ∨ strIn p.2 p.1 = true) →
        store.any (intKeyB (srcOf p.1 p.2) (tgtOf p.1 p.2)) = true) →
      genIntPairs pairs store = store := by
  intro pairs
  induction pairs with
  | nil => intro store _; rfl
  | cons p rest ih =>
    intro store h
    obtain ⟨t1, t2⟩ := p
    have hstep : intStep store t1 t2 = store := by
      simp only [intStep]
      by_cases hm : (strIn t1 t2 || strIn t2 t1) = true
      · rw [if_pos hm,
          if_pos (h (t1, t2) (List.mem_cons_self _ _) (by simpa using hm))]
      · rw [if_neg hm]
    simp only [genIntPairs]
    rw [hstep]
    exact ih (fun q hq hqm => h q (List.mem_cons_of_mem _ hq) hqm)

theorem mem_genDef_of_mem :
    ∀ {u : List String} {store : List Suggestion} {x : Suggestion},
      x ∈ store → x ∈ generate_definition_suggestions u store := by
  intro u
  induction u with
  | nil => intro store x hx; exact hx
  | cons tag rest ih =>
    intro store x hx
    simp only [generate_definition_suggestions]
    split
    · exact ih hx
    · exact ih (List.mem_append_left _ hx)

theorem genDef_covered :
    ∀ {u : List String} {tag : String}, tag ∈ u → ∀ store : List Suggestion,
      ∃ x ∈ generate_definition_suggestions u store, defKeyB tag x = true := by
  intro u
  induction u with
  | nil => intro tag h; cases h
  | cons t0 rest ih =>
    intro tag htag store
    rcases List.mem_cons.mp htag with rfl | h'
    · simp only [generate_definition_suggestions]
      split
      · rename_i hany
        rcases List.any_eq_true.mp hany with ⟨x, hx, hk⟩
        exact ⟨x, mem_genDef_of_mem hx, hk⟩
      · refine ⟨mkDefineSuggestion tag,
          mem_genDef_of_mem (List.mem_append_right _ (by simp)), ?_⟩
        simp [defKeyB, mkDefineSuggestion]
    · simp only [generate_definition_suggestions]
      split
      · exact ih h' store
      · exact ih h' (store ++ [mkDefineSuggestion t0])

theorem genDef_skip :
    ∀ {u : List String} {store : List Suggestion},
      (∀ tag ∈ u, store.any (defKeyB tag) = true) →
      generate_definition_suggestions u store = store := by
  intro u
  induction u with
  | nil => intro store _; rfl
  | cons tag rest ih =>
    intro store h
    simp only [generate_definition_suggestions]
    rw [if_pos (h tag (List.mem_cons_self _ _))]
    exact ih (fun q hq => h q (List.mem_cons_of_mem _ hq))

/-- C7: running the `/generate-suggestions` trigger a second time over
the store it produced — the corpus is unchanged, the suggestion store
holds what the first run left — inserts zero new suggestion records:
the second run is a no-op. -/
theorem c7_generator_idempotent (st : Store) :
    generate_suggestions_endpoint (generate_suggestions_endpoint st).2
      = generate_suggestions_endpoint st := by
  have hdef : generate_definition_suggestions (undefined_tags_list st)
      (generate_integration_suggestions (tag_definitions st.dictionary)
        (generate_definition_suggestions (undefined_tags_list st) st.suggestions))
      = generate_integration_suggestions (tag_definitions st.dictionary)
        (generate_definition_suggestions (undefined_tags_list st) st.suggestions) := by
    apply genDef_skip
    intro tag htag
    rcases genDef_covered htag st.suggestions with ⟨x, hx, hk⟩
    exact List.any_eq_true.mpr ⟨x, mem_genIntPairs_of_mem hx, hk⟩
  have hint : generate_integration_suggestions (tag_definitions st.dictionary)
      (generate_integration_suggestions (tag_definitions st.dictionary)
        (generate_definition_suggestions (undefined_tags_list st) st.suggestions))
      = generate_integration_suggestions (tag_definitions st.dictionary)
        (generate_definition_suggestions (undefined_tags_list st) st.suggestions) := by
    apply genIntPairs_skip
    intro p hp hm
    rcases genIntPairs_covered hp hm
      (generate_definition_suggestions (undefined_tags_list st) st.suggestions) with ⟨x, hx, hk⟩
    exact List.any_eq_true.mpr ⟨x, hx, hk⟩
  unfold generate_suggestions_endpoint
  apply congrArg
  show ({ st with suggestions :=
      (generate_integration_suggestions (tag_definitions st.dictionary)
        (generate_definition_suggestions (undefined_tags_list st)
          (generate_integration_suggestions (tag_definitions st.dictionary)
            (generate_definition_suggestions (undefined_tags_list st) st.suggestions)))) } : Store)
    = { st with suggestions :=
        (generate_integration_suggestions (tag_definitions st.dictionary)
          (generate_definition_suggestions (undefined_tags_list st) st.suggestions)) }
  rw [hdef, hint]

/-! ### Characterization of the merge-candidate detector -/

theorem srcOf_tgtOf_cases (x y : String) :
    (srcOf x y = x ∧ tgtOf x y = y) ∨ (srcOf x y = y ∧ tgtOf x y = x) := by
  unfold srcOf tgtOf
  by_cases h : x.length < y.length
  · left; rw [if_pos h, if_pos h]; exact ⟨rfl, rfl⟩
  · right; rw [if_neg h, if_neg h]; exact ⟨rfl, rfl⟩

theorem upPairs_mem_of :
    ∀ {l : List String} {a b : String}, (a, b) ∈ upPairs l → a ∈ l ∧ b ∈ l := by
  intro l
  induction l with
  | nil => intro a b h; cases h
  | cons t rest ih =>
    intro a b h
    simp only [upPairs] at h
    rcases List.mem_append.mp h with h1 | h2
    · rcases List.mem_map.mp h1 with ⟨u, hu, huv⟩
      have h1a : t = a := congrArg Prod.fst huv
      have h1b : u = b := congrArg Prod.snd huv
      subst h1a
      subst h1b
      exact ⟨List.mem_cons_self _ _, List.mem_cons_of_mem _ hu⟩
    · rcases ih h2 with ⟨ha, hb⟩
      exact ⟨List.mem_cons_of_mem _ ha, List.mem_cons_of_mem _ hb⟩

theorem upPairs_ne :
    ∀ {l : List String}, l.Nodup → ∀ {a b : String}, (a, b) ∈ upPairs l → a ≠ b := by
  intro l
  induction l with
  | nil => intro _ a b h; cases h
  | cons t rest ih =>
    intro hnd a b h
    rw [List.nodup_cons] at hnd
    simp only [upPairs] at h
    rcases List.mem_append.mp h with h1 | h2
    · rcases List.mem_map.mp h1 with ⟨u, hu, huv⟩
      have h1a : t = a := congrArg Prod.fst huv
      have h1b : u = b := congrArg Prod.snd huv
      subst h1a
      subst h1b
      intro hab
      exact hnd.1 (hab ▸ hu)
    · exact ih hnd.2 h2

theorem upPairs_total :
    ∀ {l : List String} {a b : String}, a ∈ l → b ∈ l → a ≠ b →
      (a, b) ∈ upPairs l ∨ (b, a) ∈ upPairs l := by
  intro l
  induction l with
  | nil => intro a b h; cases h
  | cons t rest ih =>
    intro a b ha hb hab
    simp only [upPairs, List.mem_append, List.mem_map]
    rcases List.mem_cons.mp ha with rfl | ha'
    · have hb' : b ∈ rest := by
        rcases List.mem_cons.mp hb with rfl | hb'
        · exact absurd rfl hab
        · exact hb'
      exact Or.inl (Or.inl ⟨b, hb', rfl⟩)
    · rcases List.mem_cons.mp hb with rfl | hb'
      · exact Or.inr (Or.inl ⟨a, ha', rfl⟩)
      · rcases ih ha' hb' hab with h | h
        · exact Or.inl (Or.inr h)
        · exact Or.inr (Or.inr h)

theorem genIntPairs_shape :
    ∀ {pairs : List (String × String)} {store : List Suggestion},
      (∀ x ∈ store, ∃ u v, x = mkIntegrateSuggestion u v) →
      ∀ x ∈ genIntPairs pairs store, ∃ u v, x = mkIntegrateSuggestion u v := by
  intro pairs
  induction pairs with
  | nil => intro store h; exact h
  | cons p rest ih =>
    intro store h
    obtain ⟨t1, t2⟩ := p
    simp only [genIntPairs]
    apply ih
    intro x hx
    simp only [intStep] at hx
    split at hx
    · split at hx
      · exact h x hx
      · rcases List.mem_append.mp hx with h1 | h2
        · exact h x h1
        · exact ⟨srcOf t1 t2, tgtOf t1 t2, by simpa using h2⟩
    · exact h x hx

theorem intKeyB_mkIntegrate {u v a b : String}
    (h : intKeyB a b (mkIntegrateSuggestion u v) = true) : u = a ∧ v = b := by
  simp only [intKeyB, mkIntegrateSuggestion, Bool.and_eq_true, beq_iff_eq,
    Option.some.injEq] at h
  exact ⟨h.1.1, h.1.2⟩

/-- Membership in the merge-candidate generator's output on an empty
suggestion store: exactly one suggestion per substring-related pair of
distinct defined tags, oriented shorter-to-longer. -/
theorem genInt_char (tagDefs : List (String × String))
    (hnd : (tagDefs.map Prod.fst).Nodup) (s : Suggestion) :
    s ∈ generate_integration_suggestions tagDefs [] ↔
      ∃ a b, a ∈ tagDefs.map Prod.fst ∧ b ∈ tagDefs.map Prod.fst ∧ a ≠ b ∧
        (strIn a b = true ∨ strIn b a = true) ∧
        s = mkIntegrateSuggestion (srcOf a b) (tgtOf a b) := by
  unfold generate_integration_suggestions
  constructor
  · intro hs
    rcases genIntPairs_sound hs with h | ⟨p, hp, hm, he⟩
    · exact absurd h (List.not_mem_nil _)
    · obtain ⟨a, b⟩ := p
      rcases upPairs_mem_of hp with ⟨ha, hb⟩
      exact ⟨a, b, ha, hb, upPairs_ne hnd hp, hm, he⟩
  · rintro ⟨a, b, ha, hb, hab, hm, rfl⟩
    have hlen : a.length ≠ b.length := length_ne_of_match hab hm
    rcases upPairs_total ha hb hab with hp | hp
    · rcases genIntPairs_covered hp hm [] with ⟨x, hx, hk⟩
      rcases genIntPairs_shape (fun y hy => absurd hy (List.not_mem_nil _)) x hx
        with ⟨u, v, rfl⟩
      rcases intKeyB_mkIntegrate hk with ⟨rfl, rfl⟩
      exact hx
    · rcases genIntPairs_covered hp (Or.symm hm) [] with ⟨x, hx, hk⟩
      rcases genIntPairs_shape (fun y hy => absurd hy (List.not_mem_nil _)) x hx
        with ⟨u, v, rfl⟩
      rcases intKeyB_mkIntegrate hk with ⟨rfl, rfl⟩
      rw [srcOf_comm hlen, tgtOf_comm hlen]
      exact hx

/-- C2: over distinct defined tags, the merge-candidate detector emits
an `integrate_tags` suggestion for pair `(a, b)` exactly when one is a
case-sensitive substring of the other; in every such suggestion the
source is the strictly shorter string and the target the longer; and
the output set does not depend on the enumeration order of the defined
tags. -/
theorem c2_merge_direction (tagDefs : List (String × String))
    (hnd : (tagDefs.map Prod.fst).Nodup)
    (a b : String) (hab : a ≠ b)
    (ha : a ∈ tagDefs.map Prod.fst) (hb : b ∈ tagDefs.map Prod.fst) :
    ((∃ s ∈ generate_integration_suggestions tagDefs [],
        (s.sourceTag = some a ∧ s.targetTag = some b) ∨
          (s.sourceTag = some b ∧ s.targetTag = some a)) ↔
      (strIn a b = true ∨ strIn b a = true)) ∧
    (∀ s ∈ generate_integration_suggestions tagDefs [],
      s.sourceTag = some a → s.targetTag = some b → a.length < b.length) ∧
    (∀ tagDefs' : List (String × String),
      (tagDefs.map Prod.fst).Perm (tagDefs'.map Prod.fst) →
      ∀ s, s ∈ generate_integration_suggestions tagDefs [] ↔
        s ∈ generate_integration_suggestions tagDefs' []) := by
  refine ⟨⟨?_, ?_⟩, ?_, ?_⟩
  · rintro ⟨s, hs, hkey⟩
    rcases (genInt_char tagDefs hnd s).mp hs with ⟨x, y, hx, hy, hxy, hm, rfl⟩
    rcases srcOf_tgtOf_cases x y with ⟨hsx, hty⟩ | ⟨hsy, htx⟩
    · rcases hkey with ⟨h1, h2⟩ | ⟨h1, h2⟩
      · have hxa : x = a := by
          have := Option.some.injEq (srcOf x y) a ▸ h1
          rw [← hsx]; exact (by simpa [mkIntegrateSuggestion] using h1)
        have hyb : y = b := by
          rw [← hty]; exact (by simpa [mkIntegrateSuggestion] using h2)
        subst hxa; subst hyb; exact hm
      · have hxb : x = b := by
          rw [← hsx]; exact (by simpa [mkIntegrateSuggestion] using h1)
        have hya : y = a := by
          rw [← hty]; exact (by simpa [mkIntegrateSuggestion] using h2)
        subst hxb; subst hya; exact Or.symm hm
    · rcases hkey with ⟨h1, h2⟩ | ⟨h1, h2⟩
      · have hya : y = a := by
          rw [← hsy]; exact (by simpa [mkIntegrateSuggestion] using h1)
        have hxb : x = b := by
          rw [← htx]; exact (by simpa [mkIntegrateSuggestion] using h2)
        subst hya; subst hxb; exact Or.symm hm
      · have hyb : y = b := by
          rw [← hsy]; exact (by simpa [mkIntegrateSuggestion] using h1)
        have hxa : x = a := by
          rw [← htx]; exact (by simpa [mkIntegrateSuggestion] using h2)
        subst hyb; subst hxa; exact hm
  · intro hm
    refine ⟨mkIntegrateSuggestion (srcOf a b) (tgtOf a b),
      (genInt_char tagDefs hnd _).mpr ⟨a, b, ha, hb, hab, hm, rfl⟩, ?_⟩
    rcases srcOf_tgtOf_cases a b with ⟨hsa, htb⟩ | ⟨hsb, hta⟩
    · exact Or.inl ⟨by simp [mkIntegrateSuggestion, hsa], by simp [mkIntegrateSuggestion, htb]⟩
    · exact Or.inr ⟨by simp [mkIntegrateSuggestion, hsb], by simp [mkIntegrateSuggestion, hta]⟩
  · intro s hs h1 h2
    rcases (genInt_char tagDefs hnd s).mp hs with ⟨x, y, hx, hy, hxy, hm, rfl⟩
    have hlen : x.length ≠ y.length := length_ne_of_match hxy hm
    have hsa : srcOf x y = a := by simpa [mkIntegrateSuggestion] using h1
    have htb : tgtOf x y = b := by simpa [mkIntegrateSuggestion] using h2
    rw [← hsa, ← htb]
    exact srcOf_length_lt hlen
  · intro tagDefs' hperm s
    rw [genInt_char tagDefs hnd s, genInt_char tagDefs' (hperm.nodup hnd) s]
    constructor
    · rintro ⟨x, y, hx, hy, hxy, hm, rfl⟩
      exact ⟨x, y, hperm.mem_iff.mp hx, hperm.mem_iff.mp hy, hxy, hm, rfl⟩
    · rintro ⟨x, y, hx, hy, hxy, hm, rfl⟩
      exact ⟨x, y, hperm.mem_iff.mpr hx, hperm.mem_iff.mpr hy, hxy, hm, rfl⟩

/-- C2 witness: defined tags `"AI"` and `"AI司書"` (in both orders). -/
theorem c2_merge_direction_witness :
    ((([("AI", "dA"), ("AI司書", "dB")] : List (String × String)).map Prod.fst).Nodup) ∧
    ("AI" : String) ≠ "AI司書" ∧
    (((∃ s ∈ generate_integration_suggestions [("AI", "dA"), ("AI司書", "dB")] [],
        (s.sourceTag = some "AI" ∧ s.targetTag = some "AI司書") ∨
          (s.sourceTag = some "AI司書" ∧ s.targetTag = some "AI")) ↔
      (strIn "AI" "AI司書" = true ∨ strIn "AI司書" "AI" = true)) ∧
    (∀ s ∈ generate_integration_suggestions [("AI", "dA"), ("AI司書", "dB")] [],
      s.sourceTag = some "AI" → s.targetTag = some "AI司書" →
        ("AI" : String).length < ("AI司書" : String).length) ∧
    (∀ tagDefs' : List (String × String),
      (([("AI", "dA"), ("AI司書", "dB")] : List (String × String)).map Prod.fst).Perm
        (tagDefs'.map Prod.fst) →
      ∀ s, s ∈ generate_integration_suggestions [("AI", "dA"), ("AI司書", "dB")] [] ↔
        s ∈ generate_integration_suggestions tagDefs' [])) :=
  ⟨by decide, by decide,
    c2_merge_direction [("AI", "dA"), ("AI司書", "dB")] (by decide) "AI" "AI司書"
      (by decide) (by decide) (by decide)⟩

/-! ### The duplicate check of the generators ignores `status` -/

theorem genDef_eq :
    ∀ {u : List String}, u.Nodup → ∀ store : List Suggestion,
      generate_definition_suggestions u store
        = store ++ (u.filter (fun tag => !store.any (defKeyB tag))).map mkDefineSuggestion := by
  intro u
  induction u with
  | nil => intro _ store; simp [generate_definition_suggestions]
  | cons tag rest ih =>
    intro hnd store
    rw [List.nodup_cons] at hnd
    simp only [generate_definition_suggestions]
    by_cases hany : store.any (defKeyB tag) = true
    · rw [if_pos hany]
      have hcons : (tag :: rest).filter (fun t => !store.any (defKeyB t))
          = rest.filter (fun t => !store.any (defKeyB t)) := by
        simp [List.filter_cons, hany]
      rw [hcons]
      exact ih hnd.2 store
    · rw [if_neg hany]
      have hany' : store.any (defKeyB tag) = false := Bool.eq_false_iff.mpr hany
      rw [ih hnd.2 (store ++ [mkDefineSuggestion tag])]
      have hfilter : rest.filter (fun t => !(store ++ [mkDefineSuggestion tag]).any (defKeyB t))
          = rest.filter (fun t => !store.any (defKeyB t)) := by
        apply List.filter_congr
        intro t ht
        have htag : tag ≠ t := fun hEq => hnd.1 (hEq ▸ ht)
        have hkey : defKeyB t (mkDefineSuggestion tag) = false := by
          simp [defKeyB, mkDefineSuggestion, htag]
        simp [List.any_append, hkey]
      rw [hfilter]
      have hcons : (tag :: rest).filter (fun t => !store.any (defKeyB t))
          = tag :: rest.filter (fun t => !store.any (defKeyB t)) := by
        simp [List.filter_cons, hany']
      rw [hcons]
      simp [List.append_assoc]

/-- C3 counterexample: the only suggestion in the store is a resolved
(`completed`) `define_tag` suggestion for `"AI"`, so by the claim the
next run must insert a fresh pending suggestion for that key; the code
inserts nothing, because its duplicate query has no status filter. -/
theorem c3_counterexample :
    (∀ s ∈ [markCompleted (markApproved (mkDefineSuggestion "AI"))],
      s.status ≠ "pending" ∧ s.status ≠ "approved") ∧
    generate_definition_suggestions ["AI"]
        [markCompleted (markApproved (mkDefineSuggestion "AI"))]
      = [markCompleted (markApproved (mkDefineSuggestion "AI"))] := by
  constructor
  · intro s hs
    rcases List.mem_singleton.mp hs with rfl
    exact ⟨by decide, by decide⟩
  · decide

/-- C3 (amended): the generators insert a candidate exactly when no
Suggestion with the same identifying key — `(define_tag, targetTag)` or
`(integrate_tags, sourceTag, targetTag)` — exists in the store,
regardless of its status: the duplicate queries (`defKeyB`, `intKeyB`)
never inspect `status`, so a resolved (completed) Suggestion also blocks
re-insertion of its key. -/
theorem c3_dedup_ignores_status (u : List String) (hnd : u.Nodup)
    (store : List Suggestion) (t1 t2 : String)
    (hm : strIn t1 t2 = true ∨ strIn t2 t1 = true) :
    generate_definition_suggestions u store
      = store ++ (u.filter (fun tag => !store.any (defKeyB tag))).map mkDefineSuggestion ∧
    (store.any (intKeyB (srcOf t1 t2) (tgtOf t1 t2)) = false →
      intStep store t1 t2 = store ++ [mkIntegrateSuggestion (srcOf t1 t2) (tgtOf t1 t2)]) ∧
    (store.any (intKeyB (srcOf t1 t2) (tgtOf t1 t2)) = true →
      intStep store t1 t2 = store) := by
  refine ⟨genDef_eq hnd store, ?_, ?_⟩
  · intro hno
    simp only [intStep]
    rw [if_pos (by simpa using hm), if_neg (by simp [hno])]
  · intro hyes
    simp only [intStep]
    rw [if_pos (by simpa using hm), if_pos hyes]

/-- C3 witness: one undefined tag whose key is blocked by a completed
record, one fresh tag that is inserted, and an integration candidate
blocked by a completed record. -/
theorem c3_dedup_ignores_status_witness :
    (["AI", "研究"] : List String).Nodup ∧
    (strIn "AI" "AI司書" = true ∨ strIn "AI司書" "AI" = true) ∧
    ((generate_definition_suggestions ["AI", "研究"]
        [markCompleted (markApproved (mkDefineSuggestion "AI")),
          markCompleted (markApproved (mkIntegrateSuggestion "AI" "AI司書"))]
      = [markCompleted (markApproved (mkDefineSuggestion "AI")),
          markCompleted (markApproved (mkIntegrateSuggestion "AI" "AI司書"))] ++
        ((["AI", "研究"] : List String).filter
          (fun tag => !([markCompleted (markApproved (mkDefineSuggestion "AI")),
            markCompleted (markApproved (mkIntegrateSuggestion "AI" "AI司書"))].any
              (defKeyB tag)))).map mkDefineSuggestion) ∧
      (([markCompleted (markApproved (mkDefineSuggestion "AI")),
          markCompleted (markApproved (mkIntegrateSuggestion "AI" "AI司書"))].any
            (intKeyB (srcOf "AI" "AI司書") (tgtOf "AI" "AI司書")) = false →
        intStep [markCompleted (markApproved (mkDefineSuggestion "AI")),
            markCompleted (markApproved (mkIntegrateSuggestion "AI" "AI司書"))] "AI" "AI司書"
          = [markCompleted (markApproved (mkDefineSuggestion "AI")),
              markCompleted (markApproved (mkIntegrateSuggestion "AI" "AI司書"))] ++
            [mkIntegrateSuggestion (srcOf "AI" "AI司書") (tgtOf "AI" "AI司書")]) ∧
      ([markCompleted (markApproved (mkDefineSuggestion "AI")),
          markCompleted (markApproved (mkIntegrateSuggestion "AI" "AI司書"))].any
            (intKeyB (srcOf "AI" "AI司書") (tgtOf "AI" "AI司書")) = true →
        intStep [markCompleted (markApproved (mkDefineSuggestion "AI")),
            markCompleted (markApproved (mkIntegrateSuggestion "AI" "AI司書"))] "AI" "AI司書"
          = [markCompleted (markApproved (mkDefineSuggestion "AI")),
              markCompleted (markApproved (mkIntegrateSuggestion "AI" "AI司書"))]))) :=
  ⟨by decide, by decide,
    c3_dedup_ignores_status ["AI", "研究"] (by decide)
      [markCompleted (markApproved (mkDefineSuggestion "AI")),
        markCompleted (markApproved (mkIntegrateSuggestion "AI" "AI司書"))]
      "AI" "AI司書" (by decide)⟩

/-! ### Characterization of the Tag Collector -/

theorem mem_articles_foldl :
    ∀ (arts : List Article) (acc : List String) (x : String),
      (x ∈ arts.foldl
          (fun (acc : List String) (a : Article) => acc ++ a.categories ++ a.tags) acc ↔
        (x ∈ acc ∨ ∃ a ∈ arts, x ∈ a.categories ∨ x ∈ a.tags)) := by
  intro arts
  induction arts with
  | nil => intro acc x; simp
  | cons a rest ih =>
    intro acc x
    simp only [List.foldl_cons]
    rw [ih]
    simp only [List.mem_append, List.mem_cons]
    constructor
    · rintro (((h | h) | h) | ⟨e, he, hp⟩)
      · exact Or.inl h
      · exact Or.inr ⟨a, Or.inl rfl, Or.inl h⟩
      · exact Or.inr ⟨a, Or.inl rfl, Or.inr h⟩
      · exact Or.inr ⟨e, Or.inr he, hp⟩
    · rintro (h | ⟨e, he, hp⟩)
      · exact Or.inl (Or.inl (Or.inl h))
      · rcases he with rfl | he'
        · rcases hp with h | h
          · exact Or.inl (Or.inl (Or.inr h))
          · exact Or.inl (Or.inr h)
        · exact Or.inr ⟨e, he', hp⟩

theorem dictInsert_of_not_key {m : List (String × String)} {k v : String}
    (h : m.any (fun p => p.1 == k) = false) : dictInsert m k v = m ++ [(k, v)] := by
  unfold dictInsert
  rw [if_neg (by simp [h])]

theorem tag_defs_foldl_mem :
    ∀ {dict : List DictEntry} {m : List (String × String)},
      (∀ e ∈ dict, m.any (fun p => p.1 == e.termName) = false) →
      (dict.map DictEntry.termName).Nodup →
      ∀ x d, ((x, d) ∈ dict.foldl tagDefStep m ↔
        ((x, d) ∈ m ∨ ∃ e ∈ dict, e.termName = x ∧ e.definition = d ∧
          e.termName ≠ "" ∧ e.definition ≠ "")) := by
  intro dict
  induction dict with
  | nil => intro m _ _ x d; simp
  | cons e0 rest ih =>
    intro m hfresh hnd x d
    rw [List.map_cons, List.nodup_cons] at hnd
    simp only [List.foldl_cons]
    by_cases hcond : e0.termName ≠ "" ∧ e0.definition ≠ ""
    · have hstep : tagDefStep m e0 = m ++ [(e0.termName, e0.definition)] := by
        unfold tagDefStep
        rw [if_pos hcond, dictInsert_of_not_key (hfresh e0 (List.mem_cons_self _ _))]
      rw [hstep]
      have hfresh' : ∀ e ∈ rest,
          (m ++ [(e0.termName, e0.definition)]).any (fun p => p.1 == e.termName) = false := by
        intro e he
        rw [List.any_append]
        have h1 : m.any (fun p => p.1 == e.termName) = false :=
          hfresh e (List.mem_cons_of_mem _ he)
        have hne : e0.termName ≠ e.termName := fun hEq =>
          hnd.1 (hEq ▸ List.mem_map_of_mem DictEntry.termName he)
        have h2 : ([(e0.termName, e0.definition)].any (fun p => p.1 == e.termName)) = false := by
          simp [hne]
        rw [h1, h2]
        rfl
      rw [ih hfresh' hnd.2 x d]
      simp only [List.mem_append, List.mem_cons, List.not_mem_nil, or_false,
        Prod.mk.injEq]
      constructor
      · rintro ((hm | ⟨hx, hd⟩) | ⟨e, he, hp⟩)
        · exact Or.inl hm
        · exact Or.inr ⟨e0, Or.inl rfl, hx.symm, hd.symm, hcond.1, hcond.2⟩
        · exact Or.inr ⟨e, Or.inr he, hp⟩
      · rintro (hm | ⟨e, he, hp⟩)
        · exact Or.inl (Or.inl hm)
        · rcases he with rfl | he'
          · exact Or.inl (Or.inr ⟨hp.1.symm, hp.2.1.symm⟩)
          · exact Or.inr ⟨e, he', hp⟩
    · have hstep : tagDefStep m e0 = m := by
        unfold tagDefStep
        rw [if_neg hcond]
      rw [hstep, ih (fun e he => hfresh e (List.mem_cons_of_mem _ he)) hnd.2 x d]
      constructor
      · rintro (hm | ⟨e, he, hp⟩)
        · exact Or.inl hm
        · exact Or.inr ⟨e, List.mem_cons_of_mem _ he, hp⟩
      · rintro (hm | ⟨e, he, hp⟩)
        · exact Or.inl hm
        · rcases List.mem_cons.mp he with rfl | he'
          · exact absurd ⟨hp.2.2.1, hp.2.2.2⟩ hcond
          · exact Or.inr ⟨e, he', hp⟩

theorem tag_definitions_mem (dict : List DictEntry)
    (hnd : (dict.map DictEntry.termName).Nodup) (x d : String) :
    (x, d) ∈ tag_definitions dict ↔
      ∃ e ∈ dict, e.termName = x ∧ e.definition = d ∧
        e.termName ≠ "" ∧ e.definition ≠ "" := by
  unfold tag_definitions
  rw [@tag_defs_foldl_mem dict [] (fun e _ => rfl) hnd x d]
  simp

theorem mem_defined_tags (dict : List DictEntry) (x : String) :
    x ∈ defined_tags dict ↔ ∃ d, (x, d) ∈ tag_definitions dict := by
  unfold defined_tags
  simp only [List.mem_map]
  constructor
  · rintro ⟨⟨k, v⟩, hkv, rfl⟩
    exact ⟨v, hkv⟩
  · rintro ⟨d, hd⟩
    exact ⟨(x, d), hd, rfl⟩

/-- C8: the collector returns `allTags` = every article's categories and
tags together with every dictionary entry's `termName`; `definitions`
maps `termName` to `definition` exactly for entries with a non-empty
definition; `definedTags` is the key set of `definitions`; and an entry
with an empty-string definition keeps its `termName` in `allTags` but
outside `definedTags` (the data-model invariants — non-empty unique
`termName` — are assumed). -/
theorem c8_collector (st : Store)
    (hterm : ∀ e ∈ st.dictionary, e.termName ≠ "")
    (hnd : (st.dictionary.map DictEntry.termName).Nodup) :
    (∀ x, x ∈ collect_all_tags_list st ↔
      ((∃ a ∈ st.articles, x ∈ a.categories ∨ x ∈ a.tags) ∨
        ∃ e ∈ st.dictionary, e.termName = x)) ∧
    (∀ x d, (x, d) ∈ tag_definitions st.dictionary ↔
      ∃ e ∈ st.dictionary, e.termName = x ∧ e.definition = d ∧ d ≠ "") ∧
    (∀ x, x ∈ defined_tags st.dictionary ↔
      ∃ d, (x, d) ∈ tag_definitions st.dictionary) ∧
    (∀ e ∈ st.dictionary, e.definition = "" →
      e.termName ∈ collect_all_tags_list st ∧
        e.termName ∉ defined_tags st.dictionary) := by
  have hall : ∀ x, x ∈ collect_all_tags_list st ↔
      ((∃ a ∈ st.articles, x ∈ a.categories ∨ x ∈ a.tags) ∨
        ∃ e ∈ st.dictionary, e.termName = x) := by
    intro x
    unfold collect_all_tags_list
    rw [List.mem_dedup, List.mem_append, mem_articles_foldl]
    simp only [List.mem_map, List.mem_filter, decide_eq_true_eq, List.not_mem_nil,
      false_or]
    constructor
    · rintro (h | ⟨e, ⟨he, hne⟩, rfl⟩)
      · exact Or.inl h
      · exact Or.inr ⟨e, he, rfl⟩
    · rintro (h | ⟨e, he, rfl⟩)
      · exact Or.inl h
      · exact Or.inr ⟨e, ⟨he, hterm e he⟩, rfl⟩
  have hdefs : ∀ x d, (x, d) ∈ tag_definitions st.dictionary ↔
      ∃ e ∈ st.dictionary, e.termName = x ∧ e.definition = d ∧ d ≠ "" := by
    intro x d
    rw [tag_definitions_mem st.dictionary hnd x d]
    constructor
    · rintro ⟨e, he, ht, hd, _, hdne⟩
      exact ⟨e, he, ht, hd, hd ▸ hdne⟩
    · rintro ⟨e, he, ht, hd, hdne⟩
      exact ⟨e, he, ht, hd, hterm e he, hd ▸ hdne⟩
  refine ⟨hall, hdefs, fun x => mem_defined_tags st.dictionary x, ?_⟩
  intro e he hdef
  constructor
  · exact (hall e.termName).mpr (Or.inr ⟨e, he, rfl⟩)
  · intro hmem
    rcases (mem_defined_tags st.dictionary e.termName).mp hmem with ⟨d, hd⟩
    rcases (hdefs e.termName d).mp hd with ⟨e', he', ht, hd', hdne⟩
    have : e' = e := List.inj_on_of_nodup_map hnd he' he ht
    rw [this] at hd'
    exact hdne (hd' ▸ hdef)

/-- C8 witness: one article using `"AI"`, one dictionary entry defining
`"AI司書"` and one entry `"AI"` carrying an empty-string definition. -/
theorem c8_collector_witness :
    (∀ e ∈ (Store.mk [Article.mk ["研究"] ["AI"]]
        [DictEntry.mk "AI" "" [], DictEntry.mk "AI司書" "d" []] []).dictionary,
      e.termName ≠ "") ∧
    (((Store.mk [Article.mk ["研究"] ["AI"]]
        [DictEntry.mk "AI" "" [], DictEntry.mk "AI司書" "d" []] []).dictionary.map
          DictEntry.termName).Nodup) ∧
    ((∀ x, x ∈ collect_all_tags_list (Store.mk [Article.mk ["研究"] ["AI"]]
        [DictEntry.mk "AI" "" [], DictEntry.mk "AI司書" "d" []] []) ↔
      ((∃ a ∈ (Store.mk [Article.mk ["研究"] ["AI"]]
          [DictEntry.mk "AI" "" [], DictEntry.mk "AI司書" "d" []] []).articles,
          x ∈ a.categories ∨ x ∈ a.tags) ∨
        ∃ e ∈ (Store.mk [Article.mk ["研究"] ["AI"]]
          [DictEntry.mk "AI" "" [], DictEntry.mk "AI司書" "d" []] []).dictionary,
          e.termName = x)) ∧
    (∀ x d, (x, d) ∈ tag_definitions (Store.mk [Article.mk ["研究"] ["AI"]]
        [DictEntry.mk "AI" "" [], DictEntry.mk "AI司書" "d" []] []).dictionary ↔
      ∃ e ∈ (Store.mk [Article.mk ["研究"] ["AI"]]
        [DictEntry.mk "AI" "" [], DictEntry.mk "AI司書" "d" []] []).dictionary,
        e.termName = x ∧ e.definition = d ∧ d ≠ "") ∧
    (∀ x, x ∈ defined_tags (Store.mk [Article.mk ["研究"] ["AI"]]
        [DictEntry.mk "AI" "" [], DictEntry.mk "AI司書" "d" []] []).dictionary ↔
      ∃ d, (x, d) ∈ tag_definitions (Store.mk [Article.mk ["研究"] ["AI"]]
        [DictEntry.mk "AI" "" [], DictEntry.mk "AI司書" "d" []] []).dictionary) ∧
    (∀ e ∈ (Store.mk [Article.mk ["研究"] ["AI"]]
        [DictEntry.mk "AI" "" [], DictEntry.mk "AI司書" "d" []] []).dictionary,
      e.definition = "" →
        e.termName ∈ collect_all_tags_list (Store.mk [Article.mk ["研究"] ["AI"]]
          [DictEntry.mk "AI" "" [], DictEntry.mk "AI司書" "d" []] []) ∧
          e.termName ∉ defined_tags (Store.mk [Article.mk ["研究"] ["AI"]]
            [DictEntry.mk "AI" "" [], DictEntry.mk "AI司書" "d" []] []).dictionary)) :=
  ⟨by decide, by decide,
    c8_collector (Store.mk [Article.mk ["研究"] ["AI"]]
        [DictEntry.mk "AI" "" [], DictEntry.mk "AI司書" "d" []] [])
      (by decide) (by decide)⟩

/-! ### Frame property of the generation trigger -/

theorem genDef_append :
    ∀ (u : List String) (store : List Suggestion),
      ∃ new, generate_definition_suggestions u store = store ++ new ∧
        ∀ s ∈ new, s.status = "pending" := by
  intro u
  induction u with
  | nil => intro store; exact ⟨[], by simp [generate_definition_suggestions], by simp⟩
  | cons tag rest ih =>
    intro store
    simp only [generate_definition_suggestions]
    split
    · exact ih store
    · rcases ih (store ++ [mkDefineSuggestion tag]) with ⟨new, heq, hp⟩
      refine ⟨mkDefineSuggestion tag :: new, ?_, ?_⟩
      · rw [heq, List.append_assoc]
        rfl
      · intro s hs
        rcases List.mem_cons.mp hs with rfl | hs'
        · rfl
        · exact hp s hs'

theorem genIntPairs_append :
    ∀ (pairs : List (String × String)) (store : List Suggestion),
      ∃ new, genIntPairs pairs store = store ++ new ∧
        ∀ s ∈ new, s.status = "pending" := by
  intro pairs
  induction pairs with
  | nil => intro store; exact ⟨[], by simp [genIntPairs], by simp⟩
  | cons p rest ih =>
    intro store
    obtain ⟨t1, t2⟩ := p
    simp only [genIntPairs]
    have hstep : ∃ stepNew, intStep store t1 t2 = store ++ stepNew ∧
        ∀ s ∈ stepNew, s.status = "pending" := by
      simp only [intStep]
      split
      · split
        · exact ⟨[], by simp, by simp⟩
        · refine ⟨[mkIntegrateSuggestion (srcOf t1 t2) (tgtOf t1 t2)], rfl, ?_⟩
          intro s hs
          rcases List.mem_singleton.mp hs with rfl
          rfl
      · exact ⟨[], by simp, by simp⟩
    rcases hstep with ⟨s1, he1, hp1⟩
    rcases ih (intStep store t1 t2) with ⟨s2, he2, hp2⟩
    refine ⟨s1 ++ s2, ?_, ?_⟩
    · rw [he2, he1, List.append_assoc]
    · intro s hs
      rcases List.mem_append.mp hs with h | h
      · exact hp1 s h
      · exact hp2 s h

/-- C9 counterexample: the trigger's response is one fixed success body
that carries no counts: two runs creating different numbers of
suggestions (1 here, 0 there) return byte-identical responses, so the
response cannot report "counts of suggestions created". -/
theorem c9_counterexample :
    (generate_suggestions_endpoint
        (Store.mk [Article.mk [] ["AI"]] [] [])).2.suggestions.length = 1 ∧
    (generate_suggestions_endpoint (Store.mk [] [] [])).2.suggestions.length = 0 ∧
    (generate_suggestions_endpoint (Store.mk [Article.mk [] ["AI"]] [] [])).1
      = (generate_suggestions_endpoint (Store.mk [] [] [])).1 := by
  decide

/-- C9 (amended): the trigger runs the Collector then both generator
policies and never mutates the corpus — articles and dictionary are
untouched, the only writes being newly appended pending Suggestion
records — but it returns a fixed success message, not counts. -/
theorem c9_frame (st : Store) :
    (generate_suggestions_endpoint st).1
      = ⟨"success", "最適化提案の生成が完了しました。", 200⟩ ∧
    (generate_suggestions_endpoint st).2.articles = st.articles ∧
    (generate_suggestions_endpoint st).2.dictionary = st.dictionary ∧
    ∃ new : List Suggestion,
      (generate_suggestions_endpoint st).2.suggestions = st.suggestions ++ new ∧
        ∀ s ∈ new, s.status = "pending" := by
  refine ⟨rfl, rfl, rfl, ?_⟩
  obtain ⟨n1, h1, hp1⟩ := genDef_append (undefined_tags_list st) st.suggestions
  obtain ⟨n2, h2, hp2⟩ := genIntPairs_append
    (upPairs ((tag_definitions st.dictionary).map Prod.fst))
    (generate_definition_suggestions (undefined_tags_list st) st.suggestions)
  refine ⟨n1 ++ n2, ?_, ?_⟩
  · show genIntPairs (upPairs ((tag_definitions st.dictionary).map Prod.fst))
        (generate_definition_suggestions (undefined_tags_list st) st.suggestions)
      = st.suggestions ++ (n1 ++ n2)
    rw [h2, h1, List.append_assoc]
  · intro s hs
    rcases List.mem_append.mp hs with h | h
    · exact hp1 s h
    · exact hp2 s h

end TagService
